import Mathlib

/-!
Verification of the read-set discovery and pairing logic of `scripts/slurm_srst2.py`
(`get_readFile_components`, `read_file_sets`) against its specification.

Paths are modelled as lists of characters.  The Python regular expressions used by
the script are modelled by explicit greedy-match functions:

* `re.match("(.*).gz", name)` — `lastGzPos`;
* `re.match("(.*)(_S.*)(_L.*)(_R.*)(_.*)", stem)` — `illuminaMatch`;
* `re.match("(.*)(D)$", stem)` for a designator `D` — literal suffix matching
  (exact for metacharacter-free designators such as the defaults `_1` / `_2`).

Python dictionaries are modelled as association lists with insert-or-update
(`dinsert`), which preserves the insertion position of an updated key, exactly
like a Python `dict`; iteration over a dictionary is a fold over the association
list, i.e. iteration in insertion order.
-/

/-- Characters of a file path; path strings are modelled as lists of characters. -/
abbrev FPath := List Char

/-- `occursAt s pat i`: the pattern `pat` occurs in `s` starting at position `i`. -/
def occursAt (s pat : List Char) (i : Nat) : Bool :=
  decide ((s.drop i).take pat.length = pat)

/-- Largest index `j < n` satisfying `P` (scanning from the top), the position a
greedy leading `(.*)` group makes a backtracking regex engine settle on. -/
def lastSat (P : Nat → Bool) : Nat → Option Nat
  | 0 => none
  | n+1 => if P n then some n else lastSat P n

/-- Position of the last occurrence of the character `c` in `s`. -/
def rfindPos (s : List Char) (c : Char) : Option Nat :=
  lastSat (fun j => occursAt s [c] j) s.length

/-- Python `str.rfind`: index of the last occurrence, `-1` when absent. -/
def rfind (s : List Char) (c : Char) : Int :=
  match rfindPos s c with
  | none => -1
  | some j => (j : Int)

/-- Remove trailing `'/'` characters (Python `str.rstrip('/')`). -/
def rstripSlashes (l : List Char) : List Char :=
  (l.reverse.dropWhile (fun c => c == '/')).reverse

/-- `os.path.split`: split a path at the last `'/'`; the head keeps no trailing
slashes unless it consists only of slashes. -/
def splitPath (p : FPath) : FPath × FPath :=
  let i := (rfind p '/' + 1).toNat
  let head := p.take i
  let tail := p.drop i
  if !head.isEmpty && !(head.all (fun c => c == '/')) then (rstripSlashes head, tail)
  else (head, tail)

/-- `os.path.splitext`: split off the last `.`-extension of the final path
component, unless every character of that component before the dot is a dot. -/
def splitext (p : FPath) : FPath × FPath :=
  let sepIndex := rfind p '/'
  let dotIndex := rfind p '.'
  if sepIndex < dotIndex then
    if (List.range p.length).any
        (fun i => decide (sepIndex < (i : Int)) && decide ((i : Int) < dotIndex)
          && !(occursAt p ['.'] i)) then
      (p.take dotIndex.toNat, p.drop dotIndex.toNat)
    else (p, [])
  else (p, [])

/-- Greedy model of `re.match("(.*).gz", name)`: the match succeeds exactly when
`"gz"` occurs at some position `j ≥ 1` (the unescaped `.` consumes one arbitrary
character), and the greedy leading group makes the engine settle on the largest
such `j`; group 1 is then `name[0 : j-1]`. -/
def lastGzPos (name : List Char) : Option Nat :=
  lastSat (fun j => decide (1 ≤ j) && occursAt name ['g', 'z'] j) name.length

/-- `get_readFile_components` (lines 41-51): split a path into
(directory, stem, full extension), stripping a `.gz` marker first. -/
def get_readFile_components (full_file_path : FPath) : FPath × FPath × FPath :=
  let sp := splitPath full_file_path
  let gz := lastGzPos sp.2
  let ext : FPath := match gz with
    | some _ => ".gz".toList
    | none => []
  let file_name : FPath := match gz with
    | some j => sp.2.take (j - 1)
    | none => sp.2
  let se := splitext file_name
  (sp.1, se.1, se.2 ++ ext)

/-- The stem (`file_name_before_ext`) of a path. -/
def stemOf (f : FPath) : FPath := (get_readFile_components f).2.1

/-- The reassembled extension of a path. -/
def fullExtOf (f : FPath) : FPath := (get_readFile_components f).2.2

/-- The basename (final component) of a path. -/
def basenameOf (p : FPath) : FPath := (splitPath p).2

/-- Segment 5 of the MiSeq pattern: a final `_`-headed segment starts at `d`. -/
def pdSeg (s : List Char) (d : Nat) : Bool := occursAt s ['_'] d

/-- Segment 4 of the MiSeq pattern: `_R` at `c` with room for a final segment. -/
def pcSeg (s : List Char) (c : Nat) : Bool :=
  occursAt s ['_', 'R'] c
    && (List.range s.length).any (fun d => decide (c + 2 ≤ d) && pdSeg s d)

/-- Segment 3 of the MiSeq pattern: `_L` at `b` with room for segments 4-5. -/
def pbSeg (s : List Char) (b : Nat) : Bool :=
  occursAt s ['_', 'L'] b
    && (List.range s.length).any (fun c => decide (b + 2 ≤ c) && pcSeg s c)

/-- Segment 2 of the MiSeq pattern: `_S` at `a` with room for segments 3-5. -/
def paSeg (s : List Char) (a : Nat) : Bool :=
  occursAt s ['_', 'S'] a
    && (List.range s.length).any (fun b => decide (a + 2 ≤ b) && pbSeg s b)

/-- Greedy model of `re.match("(.*)(_S.*)(_L.*)(_R.*)(_.*)", s)` returning
`(group 1, group 4)`, i.e. the sample name and the `_R` segment.  Each greedy
`.*` settles on the largest split point that still lets the rest match. -/
def illuminaMatch (s : List Char) : Option (List Char × List Char) :=
  match lastSat (fun a => paSeg s a) s.length with
  | none => none
  | some a =>
    match lastSat (fun b => decide (a + 2 ≤ b) && pbSeg s b) s.length with
    | none => none
    | some b =>
      match lastSat (fun c => decide (b + 2 ≤ c) && pcSeg s c) s.length with
      | none => none
      | some c =>
        match lastSat (fun d => decide (c + 2 ≤ d) && pdSeg s d) s.length with
        | none => none
        | some d => some (s.take a, (s.take d).drop c)

/-- Python `dict` assignment on an association list: update in place when the
key is present (keeping its position), append otherwise. -/
def dinsert {V : Type} (d : List (FPath × V)) (k : FPath) (v : V) : List (FPath × V) :=
  match d with
  | [] => [(k, v)]
  | e :: rest => if e.1 = k then (k, v) :: rest else e :: dinsert rest k v

/-- Python `dict` lookup on an association list (first entry with the key). -/
def lookupD {V : Type} (d : List (FPath × V)) (k : FPath) : Option V :=
  match d with
  | [] => none
  | e :: rest => if e.1 = k then some e.2 else lookupD rest k

/-- The keys of an association list, in order. -/
def dkeys {V : Type} (d : List (FPath × V)) : List FPath := d.map Prod.fst

/-- Python `k in dict`. -/
def containsKey {V : Type} (d : List (FPath × V)) (k : FPath) : Bool :=
  (lookupD d k).isSome

/-- A value of the `fileSets` dictionary: the script stores both bare path
strings (lines 105 and 118) and lists of paths (lines 65, 67, 110, 113). -/
inductive FVal where
  | strV (s : FPath)
  | listV (l : List FPath)
  deriving DecidableEq

/-- The diagnostics the script prints while resolving read sets. -/
inductive Warning where
  | couldNotDetermine (f : FPath)
  | ambiguousDirection (f : FPath)
  | missingMate (f : FPath)
  deriving DecidableEq

/-- The inputs of `read_file_sets`: the single-end and paired-end collections
(an empty list models an absent argument) and the two designators. -/
structure Args where
  input_se : List FPath
  input_pe : List FPath
  forward : FPath
  reverse : FPath
  deriving DecidableEq

/-- Body of the single-end loop (lines 61-68). -/
def seStep (acc : List (FPath × FVal) × Nat) (fastq : FPath) : List (FPath × FVal) × Nat :=
  let file_name_before_ext := stemOf fastq
  match illuminaMatch file_name_before_ext with
  | none => (dinsert acc.1 file_name_before_ext (FVal.listV [fastq]), acc.2 + 1)
  | some m => (dinsert acc.1 m.1 (FVal.listV [fastq]), acc.2 + 1)

/-- State threaded through the paired-end classification loop. -/
structure PEState where
  forward_reads : List (FPath × FPath)
  reverse_reads : List (FPath × FPath)
  fileSets : List (FPath × FVal)
  num_single : Nat
  warnings : List Warning
  deriving DecidableEq

/-- Body of the paired-end classification loop (lines 76-106). -/
def peStep (fd rd : FPath) (st : PEState) (fastq : FPath) : PEState :=
  let file_name_before_ext := stemOf fastq
  match illuminaMatch file_name_before_ext with
  | none =>
    if fd.isSuffixOf file_name_before_ext then
      let baseName := file_name_before_ext.take (file_name_before_ext.length - fd.length)
      { st with forward_reads := dinsert st.forward_reads baseName fastq }
    else if rd.isSuffixOf file_name_before_ext then
      let baseName := file_name_before_ext.take (file_name_before_ext.length - rd.length)
      { st with reverse_reads := dinsert st.reverse_reads baseName fastq }
    else
      { st with warnings := st.warnings ++ [Warning.couldNotDetermine fastq] }
  | some m =>
    if m.2 = "_R1".toList then
      { st with forward_reads := dinsert st.forward_reads m.1 fastq }
    else if m.2 = "_R2".toList then
      { st with reverse_reads := dinsert st.reverse_reads m.1 fastq }
    else
      { st with fileSets := dinsert st.fileSets file_name_before_ext (FVal.strV fastq),
                num_single := st.num_single + 1,
                warnings := st.warnings ++ [Warning.ambiguousDirection fastq] }

/-- Accumulator of the two reconciliation loops. -/
structure PairAcc where
  fileSets : List (FPath × FVal)
  num_paired : Nat
  num_single : Nat
  warnings : List Warning
  deriving DecidableEq

/-- Body of the forward-read reconciliation loop (lines 108-115). -/
def pairStep (reverse_reads : List (FPath × FPath)) (acc : PairAcc) (e : FPath × FPath) :
    PairAcc :=
  match lookupD reverse_reads e.1 with
  | some r =>
    { acc with fileSets := dinsert acc.fileSets e.1 (FVal.listV [e.2, r]),
               num_paired := acc.num_paired + 1 }
  | none =>
    { acc with fileSets := dinsert acc.fileSets e.1 (FVal.listV [e.2]),
               num_single := acc.num_single + 1,
               warnings := acc.warnings ++ [Warning.missingMate e.2] }

/-- Body of the reverse-read sweep (lines 116-120); note the bare-string value. -/
def revStep (acc : PairAcc) (e : FPath × FPath) : PairAcc :=
  if containsKey acc.fileSets e.1 then acc
  else
    { acc with fileSets := dinsert acc.fileSets e.1 (FVal.strV e.2),
               num_single := acc.num_single + 1,
               warnings := acc.warnings ++ [Warning.missingMate e.2] }

/-- What `read_file_sets` produces: the `fileSets` dictionary, the two counters
it maintains, and the warnings it prints. -/
structure ReadFileSetsResult where
  fileSets : List (FPath × FVal)
  num_paired_readsets : Nat
  num_single_readsets : Nat
  warnings : List Warning
  deriving DecidableEq

/-- `read_file_sets` (lines 53-127). -/
def read_file_sets (args : Args) : ReadFileSetsResult :=
  if args.input_se ≠ [] then
    let r := args.input_se.foldl seStep ([], 0)
    ⟨r.1, 0, r.2, []⟩
  else if args.input_pe ≠ [] then
    let st := args.input_pe.foldl (peStep args.forward args.reverse) ⟨[], [], [], 0, []⟩
    let acc1 := st.forward_reads.foldl (pairStep st.reverse_reads)
      ⟨st.fileSets, 0, st.num_single, st.warnings⟩
    let acc2 := st.reverse_reads.foldl revStep acc1
    ⟨acc2.fileSets, acc2.num_paired, acc2.num_single, acc2.warnings⟩
  else ⟨[], 0, 0, []⟩

/-- How one paired-end file is classified by lines 76-106: forward mate, reverse
mate, ambiguous MiSeq-shaped single (keyed by its full stem), or dropped. -/
inductive PClass where
  | fwdC (k : FPath)
  | revC (k : FPath)
  | ambC (k : FPath)
  | dropC
  deriving DecidableEq

/-- The classification decision taken by `peStep` for one file. -/
def pclass (fd rd : FPath) (fastq : FPath) : PClass :=
  let stem := stemOf fastq
  match illuminaMatch stem with
  | none =>
    if fd.isSuffixOf stem then PClass.fwdC (stem.take (stem.length - fd.length))
    else if rd.isSuffixOf stem then PClass.revC (stem.take (stem.length - rd.length))
    else PClass.dropC
  | some m =>
    if m.2 = "_R1".toList then PClass.fwdC m.1
    else if m.2 = "_R2".toList then PClass.revC m.1
    else PClass.ambC stem

/-- The `(key, file)` entries the classification loop feeds into `forward_reads`. -/
def fwdEntries (fd rd : FPath) (inputs : List FPath) : List (FPath × FPath) :=
  inputs.filterMap (fun f =>
    match pclass fd rd f with
    | PClass.fwdC k => some (k, f)
    | _ => none)

/-- The `(key, file)` entries the classification loop feeds into `reverse_reads`. -/
def revEntries (fd rd : FPath) (inputs : List FPath) : List (FPath × FPath) :=
  inputs.filterMap (fun f =>
    match pclass fd rd f with
    | PClass.revC k => some (k, f)
    | _ => none)

/-- The `(stem, file)` entries the classification loop stores directly into
`fileSets` for MiSeq-shaped names with an unrecognised `_R` value. -/
def ambEntries (fd rd : FPath) (inputs : List FPath) : List (FPath × FPath) :=
  inputs.filterMap (fun f =>
    match pclass fd rd f with
    | PClass.ambC k => some (k, f)
    | _ => none)

/-- The warnings printed by the classification loop, in input order. -/
def classWarns (fd rd : FPath) (inputs : List FPath) : List Warning :=
  inputs.filterMap (fun f =>
    match pclass fd rd f with
    | PClass.ambC _ => some (Warning.ambiguousDirection f)
    | PClass.dropC => some (Warning.couldNotDetermine f)
    | _ => none)

/-- The dictionary key the single-end loop derives for a file. -/
def seKey (f : FPath) : FPath :=
  match illuminaMatch (stemOf f) with
  | none => stemOf f
  | some m => m.1

/-- Python `len` of a `fileSets` value: the length of the list, or, for the
bare-string entries, the number of characters of the path. -/
def valueLen : FVal → Nat
  | FVal.strV s => s.length
  | FVal.listV l => l.length

/-- The `len(fastq) > 1` test of `main` (line 195) that decides whether a
`fileSets` value is submitted as a paired read set. -/
def treatedAsPaired (v : FVal) : Bool := decide (1 < valueLen v)

/-- A value holding exactly two files (a `Paired` entry of the spec). -/
def isPairedEntry : FVal → Bool
  | FVal.listV l => decide (l.length = 2)
  | FVal.strV _ => false

/-- A value holding exactly one file (a `Single` or `Unpaired` entry of the
spec); a bare-string value holds one file. -/
def isSingleEntry : FVal → Bool
  | FVal.listV l => decide (l.length = 1)
  | FVal.strV _ => true

/-- The number of `Paired` entries of a `fileSets` dictionary. -/
def countPaired (fs : List (FPath × FVal)) : Nat :=
  fs.countP (fun e => isPairedEntry e.2)

/-- The number of `Single` plus `Unpaired` entries of a `fileSets` dictionary. -/
def countSingle (fs : List (FPath × FVal)) : Nat :=
  fs.countP (fun e => isSingleEntry e.2)

/-- How many times the path `p` occurs in a `fileSets` value. -/
def occInVal (p : FPath) : FVal → Nat
  | FVal.strV s => if s = p then 1 else 0
  | FVal.listV l => l.count p

/-- How many times the path `p` occurs across all values of a `fileSets`
dictionary ("appears in exactly one ReadSet" means this count is `1`). -/
def occCount (p : FPath) (fs : List (FPath × FVal)) : Nat :=
  (fs.map (fun e => occInVal p e.2)).sum

/-- Key-distinctness of a paired-end input collection: within each of the three
classification buckets no two files derive the same key, and no ambiguous stem
collides with a forward or reverse sample key. -/
def peDistinct (fd rd : FPath) (inputs : List FPath) : Prop :=
  (dkeys (fwdEntries fd rd inputs)).Nodup ∧
  (dkeys (revEntries fd rd inputs)).Nodup ∧
  (dkeys (ambEntries fd rd inputs)).Nodup ∧
  (∀ k ∈ dkeys (ambEntries fd rd inputs),
    k ∉ dkeys (fwdEntries fd rd inputs) ∧ k ∉ dkeys (revEntries fd rd inputs))

instance (fd rd : FPath) (inputs : List FPath) : Decidable (peDistinct fd rd inputs) := by
  unfold peDistinct; infer_instance

/-- The value stored for a forward entry by the reconciliation loop. -/
def pairVal (reverse_reads : List (FPath × FPath)) (e : FPath × FPath) : FVal :=
  match lookupD reverse_reads e.1 with
  | some r => FVal.listV [e.2, r]
  | none => FVal.listV [e.2]

/-- The `fileSets` contents contributed by the ambiguous MiSeq-shaped files. -/
def ambStored (fd rd : FPath) (inputs : List FPath) : List (FPath × FVal) :=
  (ambEntries fd rd inputs).map (fun e => (e.1, FVal.strV e.2))

/-- The `fileSets` contents contributed by the forward reconciliation loop. -/
def fwdStored (fd rd : FPath) (inputs : List FPath) : List (FPath × FVal) :=
  (fwdEntries fd rd inputs).map (fun e => (e.1, pairVal (revEntries fd rd inputs) e))

/-- The `fileSets` dictionary after the forward reconciliation loop. -/
def fsAfterFwd (fd rd : FPath) (inputs : List FPath) : List (FPath × FVal) :=
  ambStored fd rd inputs ++ fwdStored fd rd inputs

/-- The reverse entries that survive the `sample not in fileSets` test. -/
def revOnly (fd rd : FPath) (inputs : List FPath) : List (FPath × FPath) :=
  (revEntries fd rd inputs).filter (fun e => !containsKey (fsAfterFwd fd rd inputs) e.1)

/-- The `fileSets` contents contributed by the reverse sweep. -/
def revStored (fd rd : FPath) (inputs : List FPath) : List (FPath × FVal) :=
  (revOnly fd rd inputs).map (fun e => (e.1, FVal.strV e.2))

/-! ### Association-list lemmas -/

theorem dkeys_append {V : Type} (a b : List (FPath × V)) :
    dkeys (a ++ b) = dkeys a ++ dkeys b := by
  simp [dkeys]

theorem dkeys_map_fst {V W : Type} (l : List (FPath × V)) (g : FPath × V → W) :
    dkeys (l.map (fun e => (e.1, g e))) = dkeys l := by
  simp [dkeys, Function.comp]

theorem dinsert_eq_append {V : Type} (d : List (FPath × V)) (k : FPath) (v : V)
    (h : k ∉ dkeys d) : dinsert d k v = d ++ [(k, v)] := by
  induction d with
  | nil => rfl
  | cons e rest ih =>
    have h1 : ¬ e.1 = k := by
      intro he
      exact h (by rw [← he]; exact List.mem_cons_self _ _)
    have h2 : k ∉ dkeys rest := by
      intro hk
      exact h (List.mem_cons_of_mem _ hk)
    simp only [dinsert, if_neg h1, List.cons_append]
    rw [ih h2]

theorem lookupD_eq_none {V : Type} (d : List (FPath × V)) (k : FPath) :
    lookupD d k = none ↔ k ∉ dkeys d := by
  induction d with
  | nil => simp [lookupD, dkeys]
  | cons e rest ih =>
    simp only [lookupD, dkeys, List.map_cons, List.mem_cons]
    by_cases h : e.1 = k
    · rw [if_pos h]
      constructor
      · intro hc
        exact absurd hc (Option.some_ne_none _)
      · intro hc
        exact absurd (Or.inl h.symm) hc
    · rw [if_neg h, ih]
      constructor
      · intro hn hc
        rcases hc with hc | hc
        · exact h hc.symm
        · exact hn hc
      · intro hn hc
        exact hn (Or.inr hc)

theorem containsKey_true_iff {V : Type} (d : List (FPath × V)) (k : FPath) :
    containsKey d k = true ↔ k ∈ dkeys d := by
  rw [containsKey, Option.isSome_iff_ne_none]
  constructor
  · intro h
    by_contra hk
    exact h ((lookupD_eq_none d k).2 hk)
  · intro h hn
    exact ((lookupD_eq_none d k).1 hn) h

theorem containsKey_false_iff {V : Type} (d : List (FPath × V)) (k : FPath) :
    containsKey d k = false ↔ k ∉ dkeys d := by
  rw [← Bool.not_eq_true, not_iff_not]
  exact containsKey_true_iff d k

theorem lookupD_append {V : Type} (a b : List (FPath × V)) (k : FPath) :
    lookupD (a ++ b) k = (lookupD a k).or (lookupD b k) := by
  induction a with
  | nil => simp [lookupD]
  | cons e rest ih =>
    by_cases h : e.1 = k
    · simp [lookupD, h]
    · simp [lookupD, h, ih]

theorem containsKey_append {V : Type} (a b : List (FPath × V)) (k : FPath) :
    containsKey (a ++ b) k = (containsKey a k || containsKey b k) := by
  unfold containsKey
  rw [lookupD_append]
  cases lookupD a k <;> simp [Option.or]

theorem lookupD_mem {V : Type} (d : List (FPath × V)) (k : FPath) (v : V)
    (h : lookupD d k = some v) : (k, v) ∈ d := by
  induction d with
  | nil => simp [lookupD] at h
  | cons e rest ih =>
    by_cases he : e.1 = k
    · simp only [lookupD, if_pos he] at h
      have hv : e.2 = v := by injection h
      have : (k, v) = e := by
        cases e
        simp only at he hv
        rw [he, hv]
      rw [this]
      exact List.mem_cons_self _ _
    · simp only [lookupD, if_neg he] at h
      exact List.mem_cons_of_mem _ (ih h)

theorem lookupD_of_mem_nodup {V : Type} (d : List (FPath × V)) (k : FPath) (v : V)
    (hd : (dkeys d).Nodup) (h : (k, v) ∈ d) : lookupD d k = some v := by
  induction d with
  | nil => simp at h
  | cons e rest ih =>
    simp only [dkeys, List.map_cons, List.nodup_cons] at hd
    rcases List.mem_cons.1 h with h1 | h2
    · rw [← h1]
      simp [lookupD]
    · have hk : ¬ e.1 = k := by
        intro hek
        exact hd.1 (hek ▸ (List.mem_map.2 ⟨(k, v), h2, rfl⟩))
      simp only [lookupD, if_neg hk]
      exact ih hd.2 h2

/-! ### `lastSat` lemmas -/

theorem lastSat_eq_none (P : Nat → Bool) (n : Nat) :
    lastSat P n = none ↔ ∀ j < n, P j = false := by
  induction n with
  | zero => simp [lastSat]
  | succ m ih =>
    unfold lastSat
    by_cases h : P m = true
    · simp only [if_pos h]
      constructor
      · intro hc
        exact absurd hc (by simp)
      · intro hall
        rw [hall m (Nat.lt_succ_self m)] at h
        exact absurd h (by simp)
    · rw [if_neg h, ih]
      constructor
      · intro hall j hj
        rcases Nat.lt_succ_iff_lt_or_eq.1 hj with hlt | heq
        · exact hall j hlt
        · subst heq
          exact Bool.eq_false_iff.2 h
      · intro hall j hj
        exact hall j (Nat.lt_succ_of_lt hj)

theorem lastSat_eq_some (P : Nat → Bool) (n m : Nat)
    (hm : m < n) (hP : P m = true) (hmax : ∀ j, m < j → j < n → P j = false) :
    lastSat P n = some m := by
  induction n with
  | zero => exact absurd hm (Nat.not_lt_zero m)
  | succ k ih =>
    unfold lastSat
    rcases Nat.lt_succ_iff_lt_or_eq.1 hm with hlt | heq
    · rw [if_neg (by rw [hmax k hlt (Nat.lt_succ_self k)]; simp)]
      exact ih hlt (fun j h1 h2 => hmax j h1 (Nat.lt_succ_of_lt h2))
    · subst heq
      rw [if_pos hP]

/-! ### `splitext` reassembly -/

theorem splitext_join (p : FPath) : (splitext p).1 ++ (splitext p).2 = p := by
  simp only [splitext]
  split_ifs <;> simp [List.take_append_drop]

/-! ### Sum and count helpers -/

theorem sum_map_zero {α : Type} (l : List α) (g : α → Nat)
    (h : ∀ e ∈ l, g e = 0) : (l.map g).sum = 0 := by
  apply List.sum_eq_zero
  intro x hx
  obtain ⟨e, he, rfl⟩ := List.mem_map.1 hx
  exact h e he

theorem sum_map_indicator {α : Type} [DecidableEq α] (l : List α) (g : α → Nat) (e0 : α)
    (h : ∀ e ∈ l, g e = if e = e0 then 1 else 0) : (l.map g).sum = l.count e0 := by
  induction l with
  | nil => simp
  | cons a rest ih =>
    simp only [List.map_cons, List.sum_cons, List.count_cons]
    rw [h a (List.mem_cons_self a rest), ih (fun e he => h e (List.mem_cons_of_mem a he))]
    by_cases ha : a = e0 <;> simp [ha, Nat.add_comm]

theorem occCount_append (p : FPath) (a b : List (FPath × FVal)) :
    occCount p (a ++ b) = occCount p a + occCount p b := by
  simp [occCount]

/-! ### Step bridging lemmas -/

theorem seStep_eq (acc : List (FPath × FVal) × Nat) (f : FPath) :
    seStep acc f = (dinsert acc.1 (seKey f) (FVal.listV [f]), acc.2 + 1) := by
  simp only [seStep, seKey]
  cases illuminaMatch (stemOf f) <;> rfl

theorem peStep_eq (fd rd : FPath) (st : PEState) (f : FPath) :
    peStep fd rd st f =
      (match pclass fd rd f with
       | PClass.fwdC k => { st with forward_reads := dinsert st.forward_reads k f }
       | PClass.revC k => { st with reverse_reads := dinsert st.reverse_reads k f }
       | PClass.ambC k =>
         { st with fileSets := dinsert st.fileSets k (FVal.strV f),
                   num_single := st.num_single + 1,
                   warnings := st.warnings ++ [Warning.ambiguousDirection f] }
       | PClass.dropC =>
         { st with warnings := st.warnings ++ [Warning.couldNotDetermine f] }) := by
  simp only [peStep, pclass]
  cases illuminaMatch (stemOf f) with
  | none =>
    dsimp only
    split_ifs <;> rfl
  | some m =>
    dsimp only
    split_ifs <;> rfl

/-! ### Closed form of the single-end loop -/

theorem se_fold (inputs : List FPath) : ∀ (fs : List (FPath × FVal)) (n : Nat),
    (dkeys fs ++ inputs.map seKey).Nodup →
    inputs.foldl seStep (fs, n) =
      (fs ++ inputs.map (fun f => (seKey f, FVal.listV [f])), n + inputs.length) := by
  induction inputs with
  | nil =>
    intro fs n _
    simp
  | cons f rest ih =>
    intro fs n h
    rw [List.foldl_cons, seStep_eq]
    have hknotin : seKey f ∉ dkeys fs := by
      have hdisj := List.disjoint_of_nodup_append h
      intro hmem
      exact hdisj hmem (by simp)
    rw [dinsert_eq_append _ _ _ hknotin]
    have h' : (dkeys (fs ++ [(seKey f, FVal.listV [f])]) ++ rest.map seKey).Nodup := by
      rw [dkeys_append, List.append_assoc]
      simpa [dkeys] using h
    rw [ih _ _ h']
    simp only [List.map_cons, List.length_cons, Prod.mk.injEq, List.append_assoc,
      List.singleton_append, List.cons_append, List.nil_append]
    constructor
    · trivial
    · omega

theorem se_fold_count (inputs : List FPath) : ∀ (fs : List (FPath × FVal)) (n : Nat),
    (inputs.foldl seStep (fs, n)).2 = n + inputs.length := by
  induction inputs with
  | nil =>
    intro fs n
    simp
  | cons f rest ih =>
    intro fs n
    rw [List.foldl_cons, seStep_eq, ih, List.length_cons]
    omega

/-! ### Closed form of the paired-end classification loop -/

theorem classify_fold (fd rd : FPath) (inputs : List FPath) : ∀ (st : PEState),
    (dkeys st.forward_reads ++ dkeys (fwdEntries fd rd inputs)).Nodup →
    (dkeys st.reverse_reads ++ dkeys (revEntries fd rd inputs)).Nodup →
    (dkeys st.fileSets ++ dkeys (ambEntries fd rd inputs)).Nodup →
    inputs.foldl (peStep fd rd) st =
      ⟨st.forward_reads ++ fwdEntries fd rd inputs,
       st.reverse_reads ++ revEntries fd rd inputs,
       st.fileSets ++ (ambEntries fd rd inputs).map (fun e => (e.1, FVal.strV e.2)),
       st.num_single + (ambEntries fd rd inputs).length,
       st.warnings ++ classWarns fd rd inputs⟩ := by
  induction inputs with
  | nil =>
    intro st h1 h2 h3
    simp [fwdEntries, revEntries, ambEntries, classWarns]
  | cons f rest ih =>
    intro st h1 h2 h3
    rw [List.foldl_cons, peStep_eq]
    cases hc : pclass fd rd f with
    | fwdC k =>
      dsimp only
      have hf : fwdEntries fd rd (f :: rest) = (k, f) :: fwdEntries fd rd rest := by
        simp [fwdEntries, hc]
      have hr : revEntries fd rd (f :: rest) = revEntries fd rd rest := by
        simp [revEntries, hc]
      have ha : ambEntries fd rd (f :: rest) = ambEntries fd rd rest := by
        simp [ambEntries, hc]
      have hw : classWarns fd rd (f :: rest) = classWarns fd rd rest := by
        simp [classWarns, hc]
      rw [hf] at h1
      rw [hr] at h2
      rw [ha] at h3
      have hknotin : k ∉ dkeys st.forward_reads := by
        have hdisj := List.disjoint_of_nodup_append h1
        intro hmem
        exact hdisj hmem (by simp [dkeys])
      rw [dinsert_eq_append _ _ _ hknotin]
      have h1' : (dkeys (st.forward_reads ++ [(k, f)]) ++ dkeys (fwdEntries fd rd rest)).Nodup := by
        rw [dkeys_append, List.append_assoc]
        simpa [dkeys] using h1
      rw [ih { st with forward_reads := st.forward_reads ++ [(k, f)] } h1' h2 h3]
      rw [hf, hr, ha, hw]
      simp [List.append_assoc]
    | revC k =>
      dsimp only
      have hf : fwdEntries fd rd (f :: rest) = fwdEntries fd rd rest := by
        simp [fwdEntries, hc]
      have hr : revEntries fd rd (f :: rest) = (k, f) :: revEntries fd rd rest := by
        simp [revEntries, hc]
      have ha : ambEntries fd rd (f :: rest) = ambEntries fd rd rest := by
        simp [ambEntries, hc]
      have hw : classWarns fd rd (f :: rest) = classWarns fd rd rest := by
        simp [classWarns, hc]
      rw [hf] at h1
      rw [hr] at h2
      rw [ha] at h3
      have hknotin : k ∉ dkeys st.reverse_reads := by
        have hdisj := List.disjoint_of_nodup_append h2
        intro hmem
        exact hdisj hmem (by simp [dkeys])
      rw [dinsert_eq_append _ _ _ hknotin]
      have h2' : (dkeys (st.reverse_reads ++ [(k, f)]) ++ dkeys (revEntries fd rd rest)).Nodup := by
        rw [dkeys_append, List.append_assoc]
        simpa [dkeys] using h2
      rw [ih { st with reverse_reads := st.reverse_reads ++ [(k, f)] } h1 h2' h3]
      rw [hf, hr, ha, hw]
      simp [List.append_assoc]
    | ambC k =>
      dsimp only
      have hf : fwdEntries fd rd (f :: rest) = fwdEntries fd rd rest := by
        simp [fwdEntries, hc]
      have hr : revEntries fd rd (f :: rest) = revEntries fd rd rest := by
        simp [revEntries, hc]
      have ha : ambEntries fd rd (f :: rest) = (k, f) :: ambEntries fd rd rest := by
        simp [ambEntries, hc]
      have hw : classWarns fd rd (f :: rest) =
          Warning.ambiguousDirection f :: classWarns fd rd rest := by
        simp [classWarns, hc]
      rw [hf] at h1
      rw [hr] at h2
      rw [ha] at h3
      have hknotin : k ∉ dkeys st.fileSets := by
        have hdisj := List.disjoint_of_nodup_append h3
        intro hmem
        exact hdisj hmem (by simp [dkeys])
      rw [dinsert_eq_append _ _ _ hknotin]
      have h3' : (dkeys (st.fileSets ++ [(k, FVal.strV f)]) ++ dkeys (ambEntries fd rd rest)).Nodup := by
        rw [dkeys_append, List.append_assoc]
        simpa [dkeys] using h3
      rw [ih { st with fileSets := st.fileSets ++ [(k, FVal.strV f)],
                       num_single := st.num_single + 1,
                       warnings := st.warnings ++ [Warning.ambiguousDirection f] } h1 h2 h3']
      rw [hf, hr, ha, hw]
      simp [List.append_assoc]
      omega
    | dropC =>
      dsimp only
      have hf : fwdEntries fd rd (f :: rest) = fwdEntries fd rd rest := by
        simp [fwdEntries, hc]
      have hr : revEntries fd rd (f :: rest) = revEntries fd rd rest := by
        simp [revEntries, hc]
      have ha : ambEntries fd rd (f :: rest) = ambEntries fd rd rest := by
        simp [ambEntries, hc]
      have hw : classWarns fd rd (f :: rest) =
          Warning.couldNotDetermine f :: classWarns fd rd rest := by
        simp [classWarns, hc]
      rw [hf] at h1
      rw [hr] at h2
      rw [ha] at h3
      rw [ih { st with warnings := st.warnings ++ [Warning.couldNotDetermine f] } h1 h2 h3]
      rw [hf, hr, ha, hw]
      simp [List.append_assoc]

/-! ### Closed form of the forward reconciliation loop -/

theorem pair_fold (R : List (FPath × FPath)) (l : List (FPath × FPath)) :
    ∀ (acc : PairAcc), (dkeys acc.fileSets ++ dkeys l).Nodup →
    l.foldl (pairStep R) acc =
      ⟨acc.fileSets ++ l.map (fun e => (e.1, pairVal R e)),
       acc.num_paired + l.countP (fun e => (lookupD R e.1).isSome),
       acc.num_single + l.countP (fun e => (lookupD R e.1).isNone),
       acc.warnings ++ l.filterMap (fun e =>
         if (lookupD R e.1).isNone then some (Warning.missingMate e.2) else none)⟩ := by
  induction l with
  | nil =>
    intro acc _
    simp
  | cons e rest ih =>
    intro acc h
    rw [List.foldl_cons]
    have hknotin : e.1 ∉ dkeys acc.fileSets := by
      have hdisj := List.disjoint_of_nodup_append h
      intro hmem
      exact hdisj hmem (by simp [dkeys])
    have h' : ∀ v : FVal,
        (dkeys (acc.fileSets ++ [(e.1, v)]) ++ dkeys rest).Nodup := by
      intro v
      rw [dkeys_append, List.append_assoc]
      simpa [dkeys] using h
    cases hr : lookupD R e.1 with
    | some r =>
      have hstep : pairStep R acc e =
          ⟨acc.fileSets ++ [(e.1, FVal.listV [e.2, r])], acc.num_paired + 1,
           acc.num_single, acc.warnings⟩ := by
        simp only [pairStep, hr]
        rw [dinsert_eq_append _ _ _ hknotin]
      rw [hstep]
      rw [ih ⟨acc.fileSets ++ [(e.1, FVal.listV [e.2, r])], acc.num_paired + 1,
           acc.num_single, acc.warnings⟩ (h' _)]
      simp only [List.map_cons, List.countP_cons, List.filterMap_cons, pairVal, hr,
        Option.isSome_some, Option.isNone_some, if_pos, if_neg, Bool.false_eq_true,
        ite_false, ite_true, List.append_assoc, List.singleton_append,
        PairAcc.mk.injEq]
      refine ⟨trivial, by omega, by omega, trivial⟩
    | none =>
      have hstep : pairStep R acc e =
          ⟨acc.fileSets ++ [(e.1, FVal.listV [e.2])], acc.num_paired,
           acc.num_single + 1, acc.warnings ++ [Warning.missingMate e.2]⟩ := by
        simp only [pairStep, hr]
        rw [dinsert_eq_append _ _ _ hknotin]
      rw [hstep]
      rw [ih ⟨acc.fileSets ++ [(e.1, FVal.listV [e.2])], acc.num_paired,
           acc.num_single + 1, acc.warnings ++ [Warning.missingMate e.2]⟩ (h' _)]
      simp only [List.map_cons, List.countP_cons, List.filterMap_cons, pairVal, hr,
        Option.isSome_none, Option.isNone_none, Bool.false_eq_true,
        ite_false, ite_true, List.append_assoc, List.singleton_append,
        PairAcc.mk.injEq]
      refine ⟨trivial, by omega, by omega, trivial⟩

/-! ### Closed form of the reverse sweep -/

theorem containsKey_sngl {V : Type} (k k' : FPath) (v : V) :
    containsKey [(k, v)] k' = decide (k = k') := by
  by_cases h : k = k' <;> simp [containsKey, lookupD, h]

theorem rev_fold (l : List (FPath × FPath)) : ∀ (acc : PairAcc), (dkeys l).Nodup →
    l.foldl revStep acc =
      ⟨acc.fileSets ++ (l.filter (fun e => !containsKey acc.fileSets e.1)).map
          (fun e => (e.1, FVal.strV e.2)),
       acc.num_paired,
       acc.num_single + l.countP (fun e => !containsKey acc.fileSets e.1),
       acc.warnings ++ (l.filter (fun e => !containsKey acc.fileSets e.1)).map
          (fun e => Warning.missingMate e.2)⟩ := by
  induction l with
  | nil =>
    intro acc _
    simp
  | cons e rest ih =>
    intro acc h
    have hcons : (e.1 :: dkeys rest).Nodup := by
      simpa only [dkeys, List.map_cons] using h
    have hnd : (dkeys rest).Nodup := hcons.of_cons
    have hne : ∀ e2 ∈ rest, e2.1 ≠ e.1 := by
      intro e2 he2 heq
      exact (List.nodup_cons.1 hcons).1 (heq ▸ List.mem_map.2 ⟨e2, he2, rfl⟩)
    rw [List.foldl_cons]
    by_cases hk : containsKey acc.fileSets e.1 = true
    · have hstep : revStep acc e = acc := by
        simp [revStep, hk]
      rw [hstep, ih acc hnd]
      simp [List.filter_cons, List.countP_cons, hk]
    · have hkf : containsKey acc.fileSets e.1 = false := by
        simpa using hk
      have hknotin : e.1 ∉ dkeys acc.fileSets := (containsKey_false_iff _ _).1 hkf
      have hstep : revStep acc e =
          ⟨acc.fileSets ++ [(e.1, FVal.strV e.2)], acc.num_paired,
           acc.num_single + 1, acc.warnings ++ [Warning.missingMate e.2]⟩ := by
        simp [revStep, hkf, dinsert_eq_append _ _ _ hknotin]
      rw [hstep]
      rw [ih ⟨acc.fileSets ++ [(e.1, FVal.strV e.2)], acc.num_paired,
           acc.num_single + 1, acc.warnings ++ [Warning.missingMate e.2]⟩ hnd]
      dsimp only
      have hpred : ∀ e2 ∈ rest,
          (!containsKey (acc.fileSets ++ [(e.1, FVal.strV e.2)]) e2.1) =
          (!containsKey acc.fileSets e2.1) := by
        intro e2 he2
        rw [containsKey_append, containsKey_sngl]
        have hd : ¬ e.1 = e2.1 := fun heq => (hne e2 he2) heq.symm
        simp [hd]
      have hpred2 : ∀ e2 ∈ rest,
          ((!containsKey (acc.fileSets ++ [(e.1, FVal.strV e.2)]) e2.1) = true ↔
           (!containsKey acc.fileSets e2.1) = true) := by
        intro e2 he2
        rw [hpred e2 he2]
      rw [List.filter_congr hpred, List.countP_congr hpred2]
      simp only [List.filter_cons, List.countP_cons, hkf, Bool.not_false,
        ite_true, if_pos, List.map_cons, List.append_assoc, List.singleton_append,
        PairAcc.mk.injEq]
      refine ⟨trivial, trivial, by omega, trivial⟩

/-! ### Closed forms of `read_file_sets` -/

theorem read_file_sets_se (args : Args) (hne : args.input_se ≠ [])
    (hd : (args.input_se.map seKey).Nodup) :
    read_file_sets args =
      ⟨args.input_se.map (fun f => (seKey f, FVal.listV [f])), 0,
       args.input_se.length, []⟩ := by
  unfold read_file_sets
  rw [if_pos hne]
  rw [se_fold args.input_se [] 0 (by simpa [dkeys] using hd)]
  simp

theorem read_file_sets_pe (args : Args) (hse : args.input_se = [])
    (hd : peDistinct args.forward args.reverse args.input_pe) :
    read_file_sets args =
      ⟨fsAfterFwd args.forward args.reverse args.input_pe ++
         revStored args.forward args.reverse args.input_pe,
       (fwdEntries args.forward args.reverse args.input_pe).countP
         (fun e => (lookupD (revEntries args.forward args.reverse args.input_pe) e.1).isSome),
       (ambEntries args.forward args.reverse args.input_pe).length +
         (fwdEntries args.forward args.reverse args.input_pe).countP
           (fun e => (lookupD (revEntries args.forward args.reverse args.input_pe) e.1).isNone) +
         (revEntries args.forward args.reverse args.input_pe).countP
           (fun e => !containsKey (fsAfterFwd args.forward args.reverse args.input_pe) e.1),
       classWarns args.forward args.reverse args.input_pe ++
         (fwdEntries args.forward args.reverse args.input_pe).filterMap
           (fun e => if (lookupD (revEntries args.forward args.reverse args.input_pe) e.1).isNone
             then some (Warning.missingMate e.2) else none) ++
         (revOnly args.forward args.reverse args.input_pe).map
           (fun e => Warning.missingMate e.2)⟩ := by
  obtain ⟨hd1, hd2, hd3, hd4⟩ := hd
  by_cases hpe : args.input_pe = []
  · simp [read_file_sets, hse, hpe, fwdEntries, revEntries, ambEntries, classWarns,
      fsAfterFwd, ambStored, fwdStored, revStored, revOnly]
  · unfold read_file_sets
    rw [if_neg (by simp [hse]), if_pos hpe]
    rw [classify_fold args.forward args.reverse args.input_pe ⟨[], [], [], 0, []⟩
      (by simpa [dkeys] using hd1) (by simpa [dkeys] using hd2) (by simpa [dkeys] using hd3)]
    dsimp only
    rw [List.nil_append, List.nil_append, List.nil_append, List.nil_append, Nat.zero_add]
    rw [pair_fold (revEntries args.forward args.reverse args.input_pe)
      (fwdEntries args.forward args.reverse args.input_pe)
      ⟨(ambEntries args.forward args.reverse args.input_pe).map (fun e => (e.1, FVal.strV e.2)),
       0, (ambEntries args.forward args.reverse args.input_pe).length,
       classWarns args.forward args.reverse args.input_pe⟩
      (by
        rw [dkeys_map_fst]
        exact List.Nodup.append hd3 hd1 (fun a ha hb => (hd4 a ha).1 hb))]
    dsimp only
    rw [Nat.zero_add]
    rw [rev_fold (revEntries args.forward args.reverse args.input_pe) _ hd2]
    dsimp only
    simp only [fsAfterFwd, ambStored, fwdStored, revStored, revOnly, List.append_assoc,
      Nat.add_assoc]

/-! ### Membership in the classification buckets -/

theorem mem_fwdEntries {fd rd : FPath} {inputs : List FPath} {e : FPath × FPath}
    (h : e ∈ fwdEntries fd rd inputs) :
    e.2 ∈ inputs ∧ pclass fd rd e.2 = PClass.fwdC e.1 := by
  obtain ⟨f, hf, heq⟩ := List.mem_filterMap.1 h
  cases hc : pclass fd rd f with
  | fwdC k =>
    rw [hc] at heq
    obtain rfl : (k, f) = e := by
      injection heq
    exact ⟨hf, hc⟩
  | revC k =>
    rw [hc] at heq
    exact Option.noConfusion heq
  | ambC k =>
    rw [hc] at heq
    exact Option.noConfusion heq
  | dropC =>
    rw [hc] at heq
    exact Option.noConfusion heq

theorem mem_revEntries {fd rd : FPath} {inputs : List FPath} {e : FPath × FPath}
    (h : e ∈ revEntries fd rd inputs) :
    e.2 ∈ inputs ∧ pclass fd rd e.2 = PClass.revC e.1 := by
  obtain ⟨f, hf, heq⟩ := List.mem_filterMap.1 h
  cases hc : pclass fd rd f with
  | fwdC k =>
    rw [hc] at heq
    exact Option.noConfusion heq
  | revC k =>
    rw [hc] at heq
    obtain rfl : (k, f) = e := by
      injection heq
    exact ⟨hf, hc⟩
  | ambC k =>
    rw [hc] at heq
    exact Option.noConfusion heq
  | dropC =>
    rw [hc] at heq
    exact Option.noConfusion heq

theorem mem_ambEntries {fd rd : FPath} {inputs : List FPath} {e : FPath × FPath}
    (h : e ∈ ambEntries fd rd inputs) :
    e.2 ∈ inputs ∧ pclass fd rd e.2 = PClass.ambC e.1 := by
  obtain ⟨f, hf, heq⟩ := List.mem_filterMap.1 h
  cases hc : pclass fd rd f with
  | fwdC k =>
    rw [hc] at heq
    exact Option.noConfusion heq
  | revC k =>
    rw [hc] at heq
    exact Option.noConfusion heq
  | ambC k =>
    rw [hc] at heq
    obtain rfl : (k, f) = e := by
      injection heq
    exact ⟨hf, hc⟩
  | dropC =>
    rw [hc] at heq
    exact Option.noConfusion heq

theorem mem_fwdEntries_intro {fd rd k f : FPath} {inputs : List FPath}
    (h1 : f ∈ inputs) (h2 : pclass fd rd f = PClass.fwdC k) :
    (k, f) ∈ fwdEntries fd rd inputs :=
  List.mem_filterMap.2 ⟨f, h1, by rw [h2]⟩

theorem mem_revEntries_intro {fd rd k f : FPath} {inputs : List FPath}
    (h1 : f ∈ inputs) (h2 : pclass fd rd f = PClass.revC k) :
    (k, f) ∈ revEntries fd rd inputs :=
  List.mem_filterMap.2 ⟨f, h1, by rw [h2]⟩

theorem mem_ambEntries_intro {fd rd k f : FPath} {inputs : List FPath}
    (h1 : f ∈ inputs) (h2 : pclass fd rd f = PClass.ambC k) :
    (k, f) ∈ ambEntries fd rd inputs :=
  List.mem_filterMap.2 ⟨f, h1, by rw [h2]⟩

theorem eq_of_mem_nodup_keys {V : Type} {l : List (FPath × V)} (hd : (dkeys l).Nodup)
    {e e2 : FPath × V} (he : e ∈ l) (he2 : e2 ∈ l) (hk : e.1 = e2.1) : e = e2 := by
  have h1 : lookupD l e.1 = some e.2 := lookupD_of_mem_nodup l e.1 e.2 hd he
  have h2 : lookupD l e2.1 = some e2.2 := lookupD_of_mem_nodup l e2.1 e2.2 hd he2
  rw [hk, h2] at h1
  have : e2.2 = e.2 := by
    injection h1
  calc e = (e.1, e.2) := rfl
    _ = (e2.1, e2.2) := by rw [hk, this]
    _ = e2 := rfl

theorem occCount_map {α : Type} (p : FPath) (l : List α) (g : α → FPath × FVal) :
    occCount p (l.map g) = (l.map (fun e => occInVal p (g e).2)).sum := by
  rw [occCount, List.map_map]
  rfl

theorem count_sngl (a p : FPath) : List.count p [a] = if a = p then 1 else 0 := by
  by_cases h : a = p <;> simp [h, List.count_cons, List.count_nil]

theorem count_pair (a b p : FPath) :
    List.count p [a, b] = (if a = p then 1 else 0) + (if b = p then 1 else 0) := by
  by_cases h1 : a = p <;> by_cases h2 : b = p <;>
    simp [h1, h2, List.count_cons, List.count_nil]

theorem occInVal_pairVal (p : FPath) (R : List (FPath × FPath)) (e : FPath × FPath) :
    occInVal p (pairVal R e) =
      (if e.2 = p then 1 else 0) +
      (match lookupD R e.1 with
       | some r => if r = p then 1 else 0
       | none => 0) := by
  unfold pairVal
  cases hr : lookupD R e.1 with
  | none =>
    dsimp [occInVal]
    rw [count_sngl]
  | some r =>
    dsimp [occInVal]
    rw [count_pair]

theorem occCount_pe_one (fd rd : FPath) (inputs : List FPath)
    (hd : peDistinct fd rd inputs) (f : FPath) (hf : f ∈ inputs)
    (hnodrop : pclass fd rd f ≠ PClass.dropC) :
    occCount f (fsAfterFwd fd rd inputs ++ revStored fd rd inputs) = 1 := by
  obtain ⟨hd1, hd2, hd3, hd4⟩ := hd
  have hfwdnd : (fwdEntries fd rd inputs).Nodup := List.Nodup.of_map Prod.fst hd1
  have hrevnd : (revEntries fd rd inputs).Nodup := List.Nodup.of_map Prod.fst hd2
  have hambnd : (ambEntries fd rd inputs).Nodup := List.Nodup.of_map Prod.fst hd3
  have hkeysA : dkeys (fsAfterFwd fd rd inputs) =
      dkeys (ambEntries fd rd inputs) ++ dkeys (fwdEntries fd rd inputs) := by
    rw [show fsAfterFwd fd rd inputs = ambStored fd rd inputs ++ fwdStored fd rd inputs
        from rfl, dkeys_append]
    rw [show ambStored fd rd inputs =
        (ambEntries fd rd inputs).map (fun e => (e.1, FVal.strV e.2)) from rfl]
    rw [show fwdStored fd rd inputs =
        (fwdEntries fd rd inputs).map
          (fun e => (e.1, pairVal (revEntries fd rd inputs) e)) from rfl]
    rw [dkeys_map_fst, dkeys_map_fst]
  rw [show fsAfterFwd fd rd inputs = ambStored fd rd inputs ++ fwdStored fd rd inputs
      from rfl, List.append_assoc, occCount_append, occCount_append]
  cases hc : pclass fd rd f with
  | dropC => exact absurd hc hnodrop
  | fwdC k =>
    have hamb : occCount f (ambStored fd rd inputs) = 0 := by
      rw [show ambStored fd rd inputs =
          (ambEntries fd rd inputs).map (fun e => (e.1, FVal.strV e.2)) from rfl,
        occCount_map]
      apply sum_map_zero
      intro e he
      have hef : e.2 ≠ f := by
        intro hef
        have h2 := (mem_ambEntries he).2
        rw [hef, hc] at h2
        exact PClass.noConfusion h2
      simp [occInVal, hef]
    have hrev : occCount f (revStored fd rd inputs) = 0 := by
      rw [show revStored fd rd inputs =
          (revOnly fd rd inputs).map (fun e => (e.1, FVal.strV e.2)) from rfl,
        occCount_map]
      apply sum_map_zero
      intro e he
      have he2 : e ∈ revEntries fd rd inputs := List.mem_of_mem_filter he
      have hef : e.2 ≠ f := by
        intro hef
        have h2 := (mem_revEntries he2).2
        rw [hef, hc] at h2
        exact PClass.noConfusion h2
      simp [occInVal, hef]
    have hfwd : occCount f (fwdStored fd rd inputs) = 1 := by
      rw [show fwdStored fd rd inputs =
          (fwdEntries fd rd inputs).map
            (fun e => (e.1, pairVal (revEntries fd rd inputs) e)) from rfl,
        occCount_map]
      rw [sum_map_indicator _ _ ((k, f) : FPath × FPath) ?_]
      · exact List.count_eq_one_of_mem hfwdnd (mem_fwdEntries_intro hf hc)
      intro e he
      dsimp only
      rw [occInVal_pairVal]
      by_cases heq : e = (k, f)
      · subst heq
        dsimp only
        rw [if_pos rfl, if_pos rfl]
        have hz :
            (match lookupD (revEntries fd rd inputs) k with
             | some r => if r = f then 1 else 0
             | none => 0) = 0 := by
          cases hr : lookupD (revEntries fd rd inputs) k with
          | none => rfl
          | some r =>
            have hm2 := (mem_revEntries (lookupD_mem _ _ _ hr)).2
            have hrf : r ≠ f := by
              intro hrf
              rw [hrf, hc] at hm2
              exact PClass.noConfusion hm2
            simp [hrf]
        rw [hz]
      · rw [if_neg heq]
        have hef : e.2 ≠ f := by
          intro hef
          have h2 := (mem_fwdEntries he).2
          rw [hef, hc] at h2
          have hek : e.1 = k := by
            injection h2 with h3
            exact h3.symm
          exact heq (by
            calc e = (e.1, e.2) := rfl
              _ = (k, f) := by rw [hek, hef])
        rw [if_neg hef, Nat.zero_add]
        cases hr : lookupD (revEntries fd rd inputs) e.1 with
        | none => rfl
        | some r =>
          have hm2 := (mem_revEntries (lookupD_mem _ _ _ hr)).2
          have hrf : r ≠ f := by
            intro hrf
            rw [hrf, hc] at hm2
            exact PClass.noConfusion hm2
          simp [hrf]
    rw [hamb, hfwd, hrev]
  | revC k =>
    have hamb : occCount f (ambStored fd rd inputs) = 0 := by
      rw [show ambStored fd rd inputs =
          (ambEntries fd rd inputs).map (fun e => (e.1, FVal.strV e.2)) from rfl,
        occCount_map]
      apply sum_map_zero
      intro e he
      have hef : e.2 ≠ f := by
        intro hef
        have h2 := (mem_ambEntries he).2
        rw [hef, hc] at h2
        exact PClass.noConfusion h2
      simp [occInVal, hef]
    have hkrev : (k, f) ∈ revEntries fd rd inputs := mem_revEntries_intro hf hc
    by_cases hkf : k ∈ dkeys (fwdEntries fd rd inputs)
    · obtain ⟨eg, heg, hegk⟩ := List.mem_map.1 hkf
      have hrev : occCount f (revStored fd rd inputs) = 0 := by
        rw [show revStored fd rd inputs =
            (revOnly fd rd inputs).map (fun e => (e.1, FVal.strV e.2)) from rfl,
          occCount_map]
        apply sum_map_zero
        intro e he
        have he2 : e ∈ revEntries fd rd inputs := List.mem_of_mem_filter he
        have hpred := (List.mem_filter.1 he).2
        have hef : e.2 ≠ f := by
          intro hef
          have h2 := (mem_revEntries he2).2
          rw [hef, hc] at h2
          have hek : e.1 = k := by
            injection h2 with h3
            exact h3.symm
          have hin : containsKey (fsAfterFwd fd rd inputs) e.1 = true := by
            rw [containsKey_true_iff, hkeysA, hek]
            exact List.mem_append.2 (Or.inr hkf)
          rw [hin] at hpred
          exact Bool.noConfusion hpred
        simp [occInVal, hef]
      have hfwd : occCount f (fwdStored fd rd inputs) = 1 := by
        rw [show fwdStored fd rd inputs =
            (fwdEntries fd rd inputs).map
              (fun e => (e.1, pairVal (revEntries fd rd inputs) e)) from rfl,
          occCount_map]
        rw [sum_map_indicator _ _ eg ?_]
        · exact List.count_eq_one_of_mem hfwdnd heg
        intro e he
        dsimp only
        rw [occInVal_pairVal]
        by_cases heq : e = eg
        · subst heq
          have hegf : e.2 ≠ f := by
            intro hef
            have h2 := (mem_fwdEntries he).2
            rw [hef, hc] at h2
            exact PClass.noConfusion h2
          rw [if_pos rfl, if_neg hegf, Nat.zero_add]
          have hlook : lookupD (revEntries fd rd inputs) e.1 = some f := by
            rw [hegk]
            exact lookupD_of_mem_nodup _ _ _ hd2 hkrev
          rw [hlook]
          simp
        · rw [if_neg heq]
          have hef : e.2 ≠ f := by
            intro hef
            have h2 := (mem_fwdEntries he).2
            rw [hef, hc] at h2
            exact PClass.noConfusion h2
          rw [if_neg hef, Nat.zero_add]
          cases hr : lookupD (revEntries fd rd inputs) e.1 with
          | none => rfl
          | some r =>
            have hrf : r ≠ f := by
              intro hrf
              have h2 := (mem_revEntries (lookupD_mem _ _ _ hr)).2
              rw [hrf, hc] at h2
              have hek : e.1 = k := by
                injection h2 with h3
                exact h3.symm
              exact heq (eq_of_mem_nodup_keys hd1 he heg (by rw [hek, hegk]))
            simp [hrf]
      rw [hamb, hfwd, hrev]
    · have hfwd : occCount f (fwdStored fd rd inputs) = 0 := by
        rw [show fwdStored fd rd inputs =
            (fwdEntries fd rd inputs).map
              (fun e => (e.1, pairVal (revEntries fd rd inputs) e)) from rfl,
          occCount_map]
        apply sum_map_zero
        intro e he
        dsimp only
        rw [occInVal_pairVal]
        have hef : e.2 ≠ f := by
          intro hef
          have h2 := (mem_fwdEntries he).2
          rw [hef, hc] at h2
          exact PClass.noConfusion h2
        rw [if_neg hef, Nat.zero_add]
        cases hr : lookupD (revEntries fd rd inputs) e.1 with
        | none => rfl
        | some r =>
          have hrf : r ≠ f := by
            intro hrf
            have h2 := (mem_revEntries (lookupD_mem _ _ _ hr)).2
            rw [hrf, hc] at h2
            have hek : e.1 = k := by
              injection h2 with h3
              exact h3.symm
            exact hkf (hek ▸ List.mem_map.2 ⟨e, he, rfl⟩)
          simp [hrf]
      have hknotamb : k ∉ dkeys (ambEntries fd rd inputs) := by
        intro hmem
        exact (hd4 k hmem).2 (List.mem_map.2 ⟨(k, f), hkrev, rfl⟩)
      have hkmem : (k, f) ∈ revOnly fd rd inputs := by
        apply List.mem_filter.2
        refine ⟨hkrev, ?_⟩
        have : containsKey (fsAfterFwd fd rd inputs) k = false := by
          rw [containsKey_false_iff, hkeysA]
          intro hmem
          rcases List.mem_append.1 hmem with hmem | hmem
          · exact hknotamb hmem
          · exact hkf hmem
        rw [this]
        rfl
      have hrev : occCount f (revStored fd rd inputs) = 1 := by
        rw [show revStored fd rd inputs =
            (revOnly fd rd inputs).map (fun e => (e.1, FVal.strV e.2)) from rfl,
          occCount_map]
        rw [sum_map_indicator _ _ ((k, f) : FPath × FPath) ?_]
        · exact List.count_eq_one_of_mem (List.Nodup.filter _ hrevnd) hkmem
        intro e he
        have he2 : e ∈ revEntries fd rd inputs := List.mem_of_mem_filter he
        dsimp only
        by_cases heq : e = (k, f)
        · subst heq
          simp [occInVal]
        · have hef : e.2 ≠ f := by
            intro hef
            have h2 := (mem_revEntries he2).2
            rw [hef, hc] at h2
            have hek : e.1 = k := by
              injection h2 with h3
              exact h3.symm
            exact heq (by
              calc e = (e.1, e.2) := rfl
                _ = (k, f) := by rw [hek, hef])
          simp [occInVal, hef, heq]
      rw [hamb, hfwd, hrev]
  | ambC s =>
    have hamb : occCount f (ambStored fd rd inputs) = 1 := by
      rw [show ambStored fd rd inputs =
          (ambEntries fd rd inputs).map (fun e => (e.1, FVal.strV e.2)) from rfl,
        occCount_map]
      rw [sum_map_indicator _ _ ((s, f) : FPath × FPath) ?_]
      · exact List.count_eq_one_of_mem hambnd (mem_ambEntries_intro hf hc)
      intro e he
      dsimp only
      by_cases heq : e = (s, f)
      · subst heq
        simp [occInVal]
      · have hef : e.2 ≠ f := by
          intro hef
          have h2 := (mem_ambEntries he).2
          rw [hef, hc] at h2
          have hek : e.1 = s := by
            injection h2 with h3
            exact h3.symm
          exact heq (by
            calc e = (e.1, e.2) := rfl
              _ = (s, f) := by rw [hek, hef])
        simp [occInVal, hef, heq]
    have hfwd : occCount f (fwdStored fd rd inputs) = 0 := by
      rw [show fwdStored fd rd inputs =
          (fwdEntries fd rd inputs).map
            (fun e => (e.1, pairVal (revEntries fd rd inputs) e)) from rfl,
        occCount_map]
      apply sum_map_zero
      intro e he
      dsimp only
      rw [occInVal_pairVal]
      have hef : e.2 ≠ f := by
        intro hef
        have h2 := (mem_fwdEntries he).2
        rw [hef, hc] at h2
        exact PClass.noConfusion h2
      rw [if_neg hef, Nat.zero_add]
      cases hr : lookupD (revEntries fd rd inputs) e.1 with
      | none => rfl
      | some r =>
        have hrf : r ≠ f := by
          intro hrf
          have h2 := (mem_revEntries (lookupD_mem _ _ _ hr)).2
          rw [hrf, hc] at h2
          exact PClass.noConfusion h2
        simp [hrf]
    have hrev : occCount f (revStored fd rd inputs) = 0 := by
      rw [show revStored fd rd inputs =
          (revOnly fd rd inputs).map (fun e => (e.1, FVal.strV e.2)) from rfl,
        occCount_map]
      apply sum_map_zero
      intro e he
      have he2 : e ∈ revEntries fd rd inputs := List.mem_of_mem_filter he
      have hef : e.2 ≠ f := by
        intro hef
        have h2 := (mem_revEntries he2).2
        rw [hef, hc] at h2
        exact PClass.noConfusion h2
      simp [occInVal, hef]
    rw [hamb, hfwd, hrev]

/-! ### Roundtrip of `get_readFile_components` -/

theorem roundtrip_of_no_gz (p : FPath) (h : lastGzPos (basenameOf p) = none) :
    (get_readFile_components p).2.1 ++ (get_readFile_components p).2.2 = basenameOf p := by
  unfold basenameOf at h ⊢
  simp only [get_readFile_components, h]
  rw [List.append_nil]
  exact splitext_join _

theorem lastGzPos_of_gz_suffix (name : FPath) (h : (".gz".toList).isSuffixOf name) :
    lastGzPos name = some (name.length - 2) := by
  obtain ⟨q, hq⟩ := List.isSuffixOf_iff_suffix.1 h
  have hlen : name.length = q.length + 3 := by
    rw [← hq]
    simp [List.length_append]
  have hsplit : name = (q ++ ['.']) ++ ['g', 'z'] := by
    rw [← hq]
    simp
  have hsplit2 : name = (q ++ ['.', 'g']) ++ ['z'] := by
    rw [← hq]
    simp
  unfold lastGzPos
  have hm2 : name.length - 2 = q.length + 1 := by omega
  rw [hm2]
  apply lastSat_eq_some
  · omega
  · have hocc : occursAt name ['g', 'z'] (q.length + 1) = true := by
      unfold occursAt
      have : name.drop (q.length + 1) = ['g', 'z'] := by
        rw [hsplit, show q.length + 1 = (q ++ ['.']).length by simp]
        exact List.drop_left _ _
      rw [this]
      simp
    simp [hocc]
  · intro j h1 h2
    have hj : j = q.length + 2 := by omega
    subst hj
    unfold occursAt
    have : name.drop (q.length + 2) = ['z'] := by
      rw [hsplit2, show q.length + 2 = (q ++ ['.', 'g']).length by simp]
      exact List.drop_left _ _
    rw [this]
    simp

theorem roundtrip_of_gz_suffix (p : FPath) (h : (".gz".toList).isSuffixOf (basenameOf p)) :
    (get_readFile_components p).2.1 ++ (get_readFile_components p).2.2 = basenameOf p := by
  obtain ⟨q, hq⟩ := List.isSuffixOf_iff_suffix.1 h
  have hlen : (basenameOf p).length = q.length + 3 := by
    rw [← hq]
    simp [List.length_append]
  have hpos : lastGzPos (basenameOf p) = some ((basenameOf p).length - 2) :=
    lastGzPos_of_gz_suffix _ h
  unfold basenameOf at hpos hq hlen ⊢
  simp only [get_readFile_components, hpos]
  have htake : (splitPath p).2.take ((splitPath p).2.length - 2 - 1) = q := by
    have hm : (splitPath p).2.length - 2 - 1 = q.length := by omega
    rw [hm, ← hq, show q ++ ".gz".toList = q ++ ".gz".toList from rfl]
    have : (q ++ ".gz".toList).take q.length = q := List.take_left q _
    exact this
  rw [htake, ← List.append_assoc, splitext_join, hq]

theorem countP_ext {α : Type} (l : List α) (p q : α → Bool) (h : ∀ e ∈ l, p e = q e) :
    l.countP p = l.countP q := by
  induction l with
  | nil => simp
  | cons a rest ih =>
    rw [List.countP_cons, List.countP_cons, h a (List.mem_cons_self a rest),
      ih (fun e he => h e (List.mem_cons_of_mem a he))]

/-! ### Claims -/

/-- C2, counterexample: on `sample.gzfoo` the greedy `(.*).gz` match fires on the
interior `gz`, so the stem and extension reassemble to `sample.gz`, not to the
original basename `sample.gzfoo`. -/
theorem claim_C2_counterexample :
    (get_readFile_components "sample.gzfoo".toList).2.1 ++
      (get_readFile_components "sample.gzfoo".toList).2.2 ≠
    basenameOf "sample.gzfoo".toList := by
  decide

/-- C2 (amended): for every non-empty path whose basename either ends in `.gz`
or contains no occurrence of `gz` at a position at least 1, decomposing with
`get_readFile_components` and reassembling `stem ++ full_extension` reconstructs
the basename of the input path. -/
theorem claim_C2 (p : FPath) (hne : p ≠ [])
    (h : (".gz".toList).isSuffixOf (basenameOf p) = true ∨ lastGzPos (basenameOf p) = none) :
    (get_readFile_components p).2.1 ++ (get_readFile_components p).2.2 = basenameOf p := by
  rcases h with h | h
  · exact roundtrip_of_gz_suffix p h
  · exact roundtrip_of_no_gz p h

/-- C2 witness: the roundtrip at the concrete path `reads.fastq.gz`. -/
theorem claim_C2_witness :
    "reads.fastq.gz".toList ≠ ([] : FPath) ∧
    (get_readFile_components "reads.fastq.gz".toList).2.1 ++
      (get_readFile_components "reads.fastq.gz".toList).2.2 =
      basenameOf "reads.fastq.gz".toList :=
  ⟨by decide, claim_C2 "reads.fastq.gz".toList (by decide) (Or.inl (by decide))⟩

/-- C3, counterexample: `get_readFile_components` raises nothing on the empty
string; it performs no emptiness check and returns the triple `("", "", "")`,
refuting the claim that it fails with `InvalidPathError` on empty input. -/
theorem claim_C3_counterexample :
    get_readFile_components ([] : FPath) = ([], [], []) := by
  decide

/-- C3 (amended): `get_readFile_components` never fails: it is a total string
operation returning a (directory, stem, extension) triple for every input,
including the empty string, on which it returns `("", "", "")`. -/
theorem claim_C3 :
    (∀ p : FPath, ∃ d s e, get_readFile_components p = (d, s, e)) ∧
    get_readFile_components ([] : FPath) = ([], [], []) :=
  ⟨fun p => ⟨(get_readFile_components p).1, (get_readFile_components p).2.1,
    (get_readFile_components p).2.2, rfl⟩, by decide⟩

/-- C4: on exactly the two default-designator MiSeq files the result is one
entry keyed `sample` holding the (forward, reverse) pair, with one paired
read set counted and zero single read sets. -/
theorem claim_C4 :
    read_file_sets ⟨[], ["sample_S1_L001_R1_001.fastq.gz".toList,
        "sample_S1_L001_R2_001.fastq.gz".toList], "_1".toList, "_2".toList⟩ =
      ⟨[("sample".toList, FVal.listV ["sample_S1_L001_R1_001.fastq.gz".toList,
          "sample_S1_L001_R2_001.fastq.gz".toList])], 1, 0, []⟩ := by
  decide

/-- C5: a paired-end file whose stem matches the MiSeq pattern with an `_R`
segment that is neither `_R1` nor `_R2` makes the classification step print the
ambiguous-direction warning, store the file under its full stem (as a bare
string), and increment the single-read counter. -/
theorem claim_C5 (fd rd : FPath) (st : PEState) (f : FPath) (b r : FPath)
    (hm : illuminaMatch (stemOf f) = some (b, r))
    (h1 : r ≠ "_R1".toList) (h2 : r ≠ "_R2".toList) :
    peStep fd rd st f =
      { st with fileSets := dinsert st.fileSets (stemOf f) (FVal.strV f),
                num_single := st.num_single + 1,
                warnings := st.warnings ++ [Warning.ambiguousDirection f] } := by
  simp only [peStep, hm]
  rw [if_neg h1, if_neg h2]

/-- C5 witness: the concrete file `weird_S1_L001_R3_001.fastq.gz`. -/
theorem claim_C5_witness :
    peStep "_1".toList "_2".toList ⟨[], [], [], 0, []⟩
        "weird_S1_L001_R3_001.fastq.gz".toList =
      ⟨[], [], [("weird_S1_L001_R3_001".toList,
          FVal.strV "weird_S1_L001_R3_001.fastq.gz".toList)], 1,
        [Warning.ambiguousDirection "weird_S1_L001_R3_001.fastq.gz".toList]⟩ := by
  rw [claim_C5 "_1".toList "_2".toList ⟨[], [], [], 0, []⟩ _
    "weird".toList "_R3".toList (by decide) (by decide) (by decide)]
  decide

/-- C6: a paired-end file whose stem does not match the MiSeq pattern is stored
as the forward mate under the stem with the forward designator stripped when
the stem ends with the forward designator, and otherwise as the reverse mate
under the stem with the reverse designator stripped when it ends with the
reverse designator. -/
theorem claim_C6 (fd rd : FPath) (st : PEState) (f : FPath)
    (hm : illuminaMatch (stemOf f) = none) :
    (fd.isSuffixOf (stemOf f) = true →
      peStep fd rd st f =
        { st with
          forward_reads :=
            dinsert st.forward_reads ((stemOf f).take ((stemOf f).length - fd.length)) f })
    ∧
    (fd.isSuffixOf (stemOf f) = false → rd.isSuffixOf (stemOf f) = true →
      peStep fd rd st f =
        { st with
          reverse_reads :=
            dinsert st.reverse_reads ((stemOf f).take ((stemOf f).length - rd.length)) f }) := by
  constructor
  · intro hfd
    simp only [peStep, hm]
    rw [if_pos hfd]
  · intro hfd hrd
    simp only [peStep, hm]
    rw [if_neg (by simp [hfd]), if_pos hrd]

/-- C6 witness: with the default designators, `sampleA_1.fastq.gz` goes to
`forward_reads` and `sampleA_2.fastq.gz` goes to `reverse_reads`, both under
the key `sampleA`. -/
theorem claim_C6_witness :
    peStep "_1".toList "_2".toList ⟨[], [], [], 0, []⟩ "sampleA_1.fastq.gz".toList =
      ⟨[("sampleA".toList, "sampleA_1.fastq.gz".toList)], [], [], 0, []⟩ ∧
    peStep "_1".toList "_2".toList ⟨[], [], [], 0, []⟩ "sampleA_2.fastq.gz".toList =
      ⟨[], [("sampleA".toList, "sampleA_2.fastq.gz".toList)], [], 0, []⟩ := by
  constructor
  · rw [(claim_C6 "_1".toList "_2".toList ⟨[], [], [], 0, []⟩
      "sampleA_1.fastq.gz".toList (by decide)).1 (by decide)]
    decide
  · rw [(claim_C6 "_1".toList "_2".toList ⟨[], [], [], 0, []⟩
      "sampleA_2.fastq.gz".toList (by decide)).2 (by decide) (by decide)]
    decide

/-- C7: in the reconciliation loop, a forward entry with no reverse entry under
the same key is emitted as a one-element list under the sample key with the
single counter incremented and a missing-mate warning, and a forward entry with
a reverse entry is emitted as the two-element pair with the paired counter
incremented. -/
theorem claim_C7 (R : List (FPath × FPath)) (acc : PairAcc) (e : FPath × FPath) :
    (lookupD R e.1 = none →
      pairStep R acc e =
        ⟨dinsert acc.fileSets e.1 (FVal.listV [e.2]), acc.num_paired,
         acc.num_single + 1, acc.warnings ++ [Warning.missingMate e.2]⟩)
    ∧
    (∀ r, lookupD R e.1 = some r →
      pairStep R acc e =
        ⟨dinsert acc.fileSets e.1 (FVal.listV [e.2, r]), acc.num_paired + 1,
         acc.num_single, acc.warnings⟩) := by
  constructor
  · intro h
    simp only [pairStep, h]
  · intro r h
    simp only [pairStep, h]

/-- C7 witness: the reconciliation step for `sampleA`, once with no reverse
mate (Unpaired, warning, single counter) and once with the mate present
(Paired, paired counter). -/
theorem claim_C7_witness :
    pairStep [] ⟨[], 0, 0, []⟩ ("sampleA".toList, "sampleA_1.fastq.gz".toList) =
      ⟨[("sampleA".toList, FVal.listV ["sampleA_1.fastq.gz".toList])], 0, 1,
       [Warning.missingMate "sampleA_1.fastq.gz".toList]⟩ ∧
    pairStep [("sampleA".toList, "sampleA_2.fastq.gz".toList)] ⟨[], 0, 0, []⟩
        ("sampleA".toList, "sampleA_1.fastq.gz".toList) =
      ⟨[("sampleA".toList, FVal.listV ["sampleA_1.fastq.gz".toList,
          "sampleA_2.fastq.gz".toList])], 1, 0, []⟩ := by
  constructor
  · rw [(claim_C7 [] ⟨[], 0, 0, []⟩ ("sampleA".toList, "sampleA_1.fastq.gz".toList)).1
      (by decide)]
    decide
  · rw [(claim_C7 [("sampleA".toList, "sampleA_2.fastq.gz".toList)] ⟨[], 0, 0, []⟩
      ("sampleA".toList, "sampleA_1.fastq.gz".toList)).2
      "sampleA_2.fastq.gz".toList (by decide)]
    decide

theorem countP_map_comp {α β : Type} (l : List α) (g : α → β) (p : β → Bool) :
    (l.map g).countP p = l.countP (fun a => p (g a)) := by
  induction l with
  | nil => rfl
  | cons a rest ih =>
    rw [List.map_cons, List.countP_cons, List.countP_cons, ih]

theorem countP_const_false {α : Type} (l : List α) : l.countP (fun _ => false) = 0 := by
  induction l with
  | nil => rfl
  | cons a rest ih =>
    rw [List.countP_cons, ih]
    simp

theorem countP_const_true {α : Type} (l : List α) : l.countP (fun _ => true) = l.length := by
  induction l with
  | nil => rfl
  | cons a rest ih =>
    rw [List.countP_cons, ih, List.length_cons]
    simp

theorem countP_eq_zero_of {α : Type} (l : List α) (p : α → Bool)
    (h : ∀ e ∈ l, p e = false) : l.countP p = 0 := by
  rw [countP_ext l p (fun _ => false) h, countP_const_false]

theorem countP_eq_length_of {α : Type} (l : List α) (p : α → Bool)
    (h : ∀ e ∈ l, p e = true) : l.countP p = l.length := by
  rw [countP_ext l p (fun _ => true) h, countP_const_true]

/-- C1, counterexample: the paired-end input `reads.fastq` matches neither the
MiSeq pattern nor either designator, so `read_file_sets` drops it: it appears
in zero read sets of the result, not in exactly one. -/
theorem claim_C1_counterexample :
    "reads.fastq".toList ∈
      (Args.mk [] ["reads.fastq".toList] "_1".toList "_2".toList).input_pe ∧
    occCount "reads.fastq".toList
      (read_file_sets (Args.mk [] ["reads.fastq".toList] "_1".toList
        "_2".toList)).fileSets = 0 := by
  decide

/-- C1 (amended): every input file appears in exactly one read set of the
result provided every paired-end file is classifiable (no dropped files) and
no key collisions occur: in single-end mode the derived keys are pairwise
distinct, and in paired-end mode the keys within each classification bucket
are pairwise distinct and no ambiguous stem equals a forward or reverse sample
key.  Without those provisos a file can be silently dropped or overwritten. -/
theorem claim_C1 :
    (∀ (args : Args), args.input_se ≠ [] → (args.input_se.map seKey).Nodup →
      ∀ f ∈ args.input_se, occCount f (read_file_sets args).fileSets = 1)
    ∧
    (∀ (args : Args), args.input_se = [] →
      peDistinct args.forward args.reverse args.input_pe →
      (∀ f ∈ args.input_pe, pclass args.forward args.reverse f ≠ PClass.dropC) →
      ∀ f ∈ args.input_pe, occCount f (read_file_sets args).fileSets = 1) := by
  constructor
  · intro args hne hd f hf
    rw [read_file_sets_se args hne hd]
    dsimp only
    rw [occCount_map]
    rw [sum_map_indicator _ _ f ?_]
    · exact List.count_eq_one_of_mem (List.Nodup.of_map seKey hd) hf
    intro e he
    show occInVal f (FVal.listV [e]) = if e = f then 1 else 0
    exact count_sngl e f
  · intro args hse hd hnodrop f hf
    rw [read_file_sets_pe args hse hd]
    exact occCount_pe_one args.forward args.reverse args.input_pe hd f hf (hnodrop f hf)

/-- C1 witness: a properly paired two-file input, checked for the forward
file. -/
theorem claim_C1_witness :
    occCount "sampleA_1.fastq.gz".toList
      (read_file_sets ⟨[], ["sampleA_1.fastq.gz".toList, "sampleA_2.fastq.gz".toList],
        "_1".toList, "_2".toList⟩).fileSets = 1 :=
  claim_C1.2 ⟨[], ["sampleA_1.fastq.gz".toList, "sampleA_2.fastq.gz".toList],
      "_1".toList, "_2".toList⟩ rfl (by decide) (by decide)
    "sampleA_1.fastq.gz".toList (by decide)

/-- C8, counterexample: two single-end files deriving the same key `aa` give
`singleCount = 2` but only one (overwritten) entry, so the counter does not
equal the number of one-file entries. -/
theorem claim_C8_counterexample :
    ¬ ((read_file_sets ⟨["d1/aa.fastq".toList, "d2/aa.fastq".toList], [],
          "_1".toList, "_2".toList⟩).num_paired_readsets =
        countPaired (read_file_sets ⟨["d1/aa.fastq".toList, "d2/aa.fastq".toList], [],
          "_1".toList, "_2".toList⟩).fileSets ∧
       (read_file_sets ⟨["d1/aa.fastq".toList, "d2/aa.fastq".toList], [],
          "_1".toList, "_2".toList⟩).num_single_readsets =
        countSingle (read_file_sets ⟨["d1/aa.fastq".toList, "d2/aa.fastq".toList], [],
          "_1".toList, "_2".toList⟩).fileSets) := by
  decide

/-- C8 (amended): `pairedCount` equals the number of two-file entries and
`singleCount` equals the number of one-file entries provided no key collisions
occur (derived keys pairwise distinct in single-end mode; in paired-end mode
pairwise-distinct keys per bucket and ambiguous stems distinct from sample
keys).  With colliding keys an overwrite makes the counters overshoot. -/
theorem claim_C8 :
    (∀ (args : Args), args.input_se ≠ [] → (args.input_se.map seKey).Nodup →
      (read_file_sets args).num_paired_readsets =
          countPaired (read_file_sets args).fileSets ∧
      (read_file_sets args).num_single_readsets =
          countSingle (read_file_sets args).fileSets)
    ∧
    (∀ (args : Args), args.input_se = [] →
      peDistinct args.forward args.reverse args.input_pe →
      (read_file_sets args).num_paired_readsets =
          countPaired (read_file_sets args).fileSets ∧
      (read_file_sets args).num_single_readsets =
          countSingle (read_file_sets args).fileSets) := by
  constructor
  · intro args hne hd
    rw [read_file_sets_se args hne hd]
    dsimp only
    constructor
    · rw [countPaired, countP_map_comp]
      symm
      exact countP_eq_zero_of _ _ (fun e _ => rfl)
    · rw [countSingle, countP_map_comp]
      symm
      exact countP_eq_length_of _ _ (fun e _ => rfl)
  · intro args hse hd
    rw [read_file_sets_pe args hse hd]
    dsimp only
    have hA : ∀ p : FVal → Bool,
        (fsAfterFwd args.forward args.reverse args.input_pe ++
          revStored args.forward args.reverse args.input_pe).countP (fun e => p e.2) =
        (ambStored args.forward args.reverse args.input_pe).countP (fun e => p e.2) +
        (fwdStored args.forward args.reverse args.input_pe).countP (fun e => p e.2) +
        (revStored args.forward args.reverse args.input_pe).countP (fun e => p e.2) := by
      intro p
      rw [show fsAfterFwd args.forward args.reverse args.input_pe =
          ambStored args.forward args.reverse args.input_pe ++
          fwdStored args.forward args.reverse args.input_pe from rfl]
      rw [List.countP_append, List.countP_append]
    have hambP : (ambStored args.forward args.reverse args.input_pe).countP
        (fun e => isPairedEntry e.2) = 0 := by
      rw [show ambStored args.forward args.reverse args.input_pe =
          (ambEntries args.forward args.reverse args.input_pe).map
            (fun e => (e.1, FVal.strV e.2)) from rfl, countP_map_comp]
      exact countP_eq_zero_of _ _ (fun e _ => rfl)
    have hrevP : (revStored args.forward args.reverse args.input_pe).countP
        (fun e => isPairedEntry e.2) = 0 := by
      rw [show revStored args.forward args.reverse args.input_pe =
          (revOnly args.forward args.reverse args.input_pe).map
            (fun e => (e.1, FVal.strV e.2)) from rfl, countP_map_comp]
      exact countP_eq_zero_of _ _ (fun e _ => rfl)
    have hfwdP : (fwdStored args.forward args.reverse args.input_pe).countP
        (fun e => isPairedEntry e.2) =
        (fwdEntries args.forward args.reverse args.input_pe).countP
          (fun e => (lookupD (revEntries args.forward args.reverse args.input_pe)
            e.1).isSome) := by
      rw [show fwdStored args.forward args.reverse args.input_pe =
          (fwdEntries args.forward args.reverse args.input_pe).map
            (fun e => (e.1, pairVal (revEntries args.forward args.reverse args.input_pe) e))
          from rfl, countP_map_comp]
      apply countP_ext
      intro e _
      dsimp only
      unfold pairVal
      cases hr : lookupD (revEntries args.forward args.reverse args.input_pe) e.1 <;> rfl
    have hambS : (ambStored args.forward args.reverse args.input_pe).countP
        (fun e => isSingleEntry e.2) =
        (ambEntries args.forward args.reverse args.input_pe).length := by
      rw [show ambStored args.forward args.reverse args.input_pe =
          (ambEntries args.forward args.reverse args.input_pe).map
            (fun e => (e.1, FVal.strV e.2)) from rfl, countP_map_comp]
      exact countP_eq_length_of _ _ (fun e _ => rfl)
    have hrevS : (revStored args.forward args.reverse args.input_pe).countP
        (fun e => isSingleEntry e.2) =
        (revEntries args.forward args.reverse args.input_pe).countP
          (fun e => !containsKey (fsAfterFwd args.forward args.reverse args.input_pe) e.1) := by
      rw [show revStored args.forward args.reverse args.input_pe =
          (revOnly args.forward args.reverse args.input_pe).map
            (fun e => (e.1, FVal.strV e.2)) from rfl, countP_map_comp]
      have h1 : (revOnly args.forward args.reverse args.input_pe).countP
          (fun a => isSingleEntry (a.1, FVal.strV a.2).2) =
          (revOnly args.forward args.reverse args.input_pe).length :=
        countP_eq_length_of _ _ (fun e _ => rfl)
      rw [h1]
      rw [show revOnly args.forward args.reverse args.input_pe =
          (revEntries args.forward args.reverse args.input_pe).filter
            (fun e => !containsKey (fsAfterFwd args.forward args.reverse args.input_pe) e.1)
          from rfl]
      rw [← List.countP_eq_length_filter]
    have hfwdS : (fwdStored args.forward args.reverse args.input_pe).countP
        (fun e => isSingleEntry e.2) =
        (fwdEntries args.forward args.reverse args.input_pe).countP
          (fun e => (lookupD (revEntries args.forward args.reverse args.input_pe)
            e.1).isNone) := by
      rw [show fwdStored args.forward args.reverse args.input_pe =
          (fwdEntries args.forward args.reverse args.input_pe).map
            (fun e => (e.1, pairVal (revEntries args.forward args.reverse args.input_pe) e))
          from rfl, countP_map_comp]
      apply countP_ext
      intro e _
      dsimp only
      unfold pairVal
      cases hr : lookupD (revEntries args.forward args.reverse args.input_pe) e.1 <;> rfl
    constructor
    · rw [countPaired, hA, hambP, hfwdP, hrevP]
      try omega
    · rw [countSingle, hA, hambS, hfwdS, hrevS]
      try omega

/-- C8 witness: the counters match the entry shapes on a concrete paired-end
invocation with one full pair. -/
theorem claim_C8_witness :
    (read_file_sets ⟨[], ["sampleA_1.fastq.gz".toList, "sampleA_2.fastq.gz".toList],
        "_1".toList, "_2".toList⟩).num_paired_readsets =
      countPaired (read_file_sets ⟨[], ["sampleA_1.fastq.gz".toList,
        "sampleA_2.fastq.gz".toList], "_1".toList, "_2".toList⟩).fileSets ∧
    (read_file_sets ⟨[], ["sampleA_1.fastq.gz".toList, "sampleA_2.fastq.gz".toList],
        "_1".toList, "_2".toList⟩).num_single_readsets =
      countSingle (read_file_sets ⟨[], ["sampleA_1.fastq.gz".toList,
        "sampleA_2.fastq.gz".toList], "_1".toList, "_2".toList⟩).fileSets :=
  claim_C8.2 ⟨[], ["sampleA_1.fastq.gz".toList, "sampleA_2.fastq.gz".toList],
    "_1".toList, "_2".toList⟩ rfl (by decide)

/-- C9: the paired-end path stores inconsistent value shapes: a reverse-only
sample and an ambiguous MiSeq-shaped file are stored as the bare path string
(not as a list), and the downstream `len(value) > 1` dispatch of `main`
therefore treats any such path longer than one character as a pair. -/
theorem claim_C9 :
    read_file_sets ⟨[], ["sampleA_2.fastq.gz".toList], "_1".toList, "_2".toList⟩ =
      ⟨[("sampleA".toList, FVal.strV "sampleA_2.fastq.gz".toList)], 0, 1,
       [Warning.missingMate "sampleA_2.fastq.gz".toList]⟩ ∧
    read_file_sets ⟨[], ["weird_S1_L001_R3_001.fastq.gz".toList], "_1".toList,
        "_2".toList⟩ =
      ⟨[("weird_S1_L001_R3_001".toList,
          FVal.strV "weird_S1_L001_R3_001.fastq.gz".toList)],
       0, 1, [Warning.ambiguousDirection "weird_S1_L001_R3_001.fastq.gz".toList]⟩ ∧
    treatedAsPaired (FVal.strV "sampleA_2.fastq.gz".toList) = true ∧
    treatedAsPaired (FVal.strV "weird_S1_L001_R3_001.fastq.gz".toList) = true ∧
    (∀ s : FPath, treatedAsPaired (FVal.strV s) = decide (1 < s.length)) ∧
    (∀ l : List FPath, treatedAsPaired (FVal.listV l) = decide (1 < l.length)) :=
  ⟨by decide, by decide, by decide, by decide, fun s => rfl, fun l => rfl⟩

/-- C10: in single-end mode the single-read counter is incremented once per
input file; with two files deriving the same key the earlier entry is silently
overwritten, so the counter (2) exceeds the number of entries (1). -/
theorem claim_C10 :
    (∀ (args : Args), args.input_se ≠ [] →
      (read_file_sets args).num_single_readsets = args.input_se.length)
    ∧
    (read_file_sets ⟨["d1/aa.fastq".toList, "d2/aa.fastq".toList], [], "_1".toList,
       "_2".toList⟩).fileSets = [("aa".toList, FVal.listV ["d2/aa.fastq".toList])] ∧
    (read_file_sets ⟨["d1/aa.fastq".toList, "d2/aa.fastq".toList], [], "_1".toList,
       "_2".toList⟩).num_single_readsets = 2 := by
  refine ⟨?_, by decide, by decide⟩
  intro args hne
  unfold read_file_sets
  rw [if_pos hne]
  show (args.input_se.foldl seStep ([], 0)).2 = args.input_se.length
  rw [se_fold_count]
  exact Nat.zero_add _

/-- C10 witness: a one-file single-end invocation counts one single read set. -/
theorem claim_C10_witness :
    (read_file_sets ⟨["a.fastq".toList], [], "_1".toList,
      "_2".toList⟩).num_single_readsets = 1 :=
  claim_C10.1 ⟨["a.fastq".toList], [], "_1".toList, "_2".toList⟩ (by decide)
